import Mathlib

/-
Shallow embedding of `src/index.ts` from the lightning-talk repository on
JavaScript iterators and generators.  JavaScript numbers are modelled as
integers (every arithmetic operation in the source is integer arithmetic),
`Infinity` as the `none` case of an `Option Int` upper bound, and `undefined`
values as `none` / a dedicated constructor.  Each possibly non-terminating
JavaScript loop becomes a total function over an explicit `fuel` bound.
-/

namespace IterTalk

/-- Result object of one `next()` call on the hand-written `range` iterator
(`src/index.ts:14` and `:16`): both branches carry a numeric `value`. -/
structure StepResult where
  value : Int
  done : Bool
deriving DecidableEq

/-- Closure state of `range(start, end, step)` (`src/index.ts:6-19`): the
mutable `index` together with the captured `end` and `step`.  `stop` is the
`end` parameter, `none` when the call used the default `Infinity`. -/
structure RangeIter where
  index : Int
  stop : Option Int
  step : Int
deriving DecidableEq

/-- The comparison `index < end`, where `end = Infinity` (`none`) makes every
finite index admissible. -/
def ltStop (i : Int) (stop : Option Int) : Bool :=
  match stop with
  | none => true
  | some e => decide (i < e)

/-- Calling `range(start, end, step)` (`src/index.ts:6-19`): the body performs
no validation, sets `index = start` and returns the iterator object.  The
defaults at the source call sites are `start = 0`, `end = Infinity` (`none`),
`step = 1`. -/
def range (start : Int) (stop : Option Int) (step : Int) : RangeIter :=
  { index := start, stop := stop, step := step }

/-- The error taxonomy the specification assigns to sequence construction
(`ConfigurationError`).  Nothing in `src/index.ts` ever produces it. -/
inductive ConstructionError
  | configurationError
deriving DecidableEq

/-- Exception-aware view of calling `range`: the body of `range`
(`src/index.ts:6-19`) contains no `throw` and no argument check, so
construction always returns the iterator and never an error. -/
def rangeE (start : Int) (stop : Option Int) (step : Int) :
    Except ConstructionError RangeIter :=
  Except.ok (range start stop step)

/-- One call of the iterator's `next()` method (`src/index.ts:10-17`),
returning the result object and the updated closure state. -/
def rangeNext (it : RangeIter) : StepResult × RangeIter :=
  if ltStop it.index it.stop then
    ({ value := it.index, done := false }, { it with index := it.index + it.step })
  else
    ({ value := it.index, done := true }, it)

/-- Closure state after `n` calls to `next()`. -/
def stepN (it : RangeIter) : Nat → RangeIter
  | 0 => it
  | n + 1 => (rangeNext (stepN it n)).2

/-- Result of the `n`-th `next()` call, 0-indexed: `resultN it 0` is the first
call's result. -/
def resultN (it : RangeIter) (n : Nat) : StepResult :=
  (rangeNext (stepN it n)).1

/-- Results of the first `n` calls, in order. -/
def resultsN (it : RangeIter) (n : Nat) : List StepResult :=
  (List.range n).map (resultN it)

/-- Number of values produced (results with `done = false`) by the first `n`
calls. -/
def producedCount (it : RangeIter) (n : Nat) : Nat :=
  ((resultsN it n).filter fun r => !r.done).length

/-- Draining an iterator the way `for … of` and the spread operator do: call
`next()` until `done`, collecting the values in order; `none` when `fuel`
calls were not enough to reach `done`. -/
def drain : Nat → RangeIter → Option (List Int)
  | 0, _ => none
  | fuel + 1, it =>
    let r := rangeNext it
    if r.1.done then some []
    else (drain fuel r.2).map fun rest => r.1.value :: rest

/-- Loop of `useRange` (`src/index.ts:27-34`): given the result of the
previous `next()` call and the iterator, run `while (!result.done)` logging
`result.value` and calling `next()` again; the returned list is everything
logged, `none` when `fuel` loop iterations were not enough. -/
def useRangeAux : Nat → StepResult × RangeIter → Option (List Int)
  | 0, (r, _) => if r.done then some [] else none
  | fuel + 1, (r, it) =>
    if r.done then some []
    else (useRangeAux fuel (rangeNext it)).map fun rest => r.value :: rest

/-- `useRange()` (`src/index.ts:27-34`): build `range(0, 10)`, take one
result, then loop. -/
def useRange (fuel : Nat) : Option (List Int) :=
  useRangeAux fuel (rangeNext (range 0 (some 10) 1))

/-- The `iterable` object (`src/index.ts:37-41`): its `Symbol.iterator` method
returns `range(0, 10)`. -/
def iterableIterator : RangeIter := range 0 (some 10) 1

/-- `for (const number of iterable)` (`src/index.ts:44-46`) and
`[...iterable]` (`src/index.ts:48`): the iteration protocol asks
`Symbol.iterator` for a fresh iterator and drains it. -/
def forOfIterable (fuel : Nat) : Option (List Int) :=
  drain fuel iterableIterator

/-- Result object of a generator `next()` call: once the generator body has
returned, `value` is `undefined` (`none`). -/
structure GenStep where
  value : Option Int
  done : Bool
deriving DecidableEq

/-- Suspension point of the generator `xrange` (`src/index.ts:61-65`): body
not yet entered, suspended at `yield index` with the loop variable's current
value, or returned. -/
inductive XPos
  | created
  | suspended (index : Int)
  | returned
deriving DecidableEq

/-- Generator object state for `xrange(start, end, step)`. -/
structure XrangeGen where
  start : Int
  stop : Option Int
  step : Int
  pos : XPos
deriving DecidableEq

/-- Calling the generator function `xrange(start, end, step)`
(`src/index.ts:61-65`): no body code runs until the first `next()`. -/
def xrange (start : Int) (stop : Option Int) (step : Int) : XrangeGen :=
  { start := start, stop := stop, step := step, pos := XPos.created }

/-- One `next()` call on an `xrange` generator: run from the current
suspension point to the next `yield index`, or to the end of the body when
the `for` loop's test `index < end` fails. -/
def xrangeNext (g : XrangeGen) : GenStep × XrangeGen :=
  match g.pos with
  | XPos.returned => ({ value := none, done := true }, g)
  | XPos.created =>
    if ltStop g.start g.stop then
      ({ value := some g.start, done := false }, { g with pos := XPos.suspended g.start })
    else
      ({ value := none, done := true }, { g with pos := XPos.returned })
  | XPos.suspended i =>
    if ltStop (i + g.step) g.stop then
      ({ value := some (i + g.step), done := false },
        { g with pos := XPos.suspended (i + g.step) })
    else
      ({ value := none, done := true }, { g with pos := XPos.returned })

/-- Draining an `xrange` generator with the iteration protocol (spreading it):
collect the `value` field of each non-`done` result; `none` when `fuel` calls
were not enough to reach `done`. -/
def xdrain : Nat → XrangeGen → Option (List (Option Int))
  | 0, _ => none
  | fuel + 1, g =>
    let r := xrangeNext g
    if r.1.done then some []
    else (xdrain fuel r.2).map fun rest => r.1.value :: rest

/-- The results of the first `n` successive `next()` calls on an `xrange`
generator. -/
def xrun : XrangeGen → Nat → List GenStep
  | _, 0 => []
  | g, n + 1 => (xrangeNext g).1 :: xrun (xrangeNext g).2 n

/-- Suspension state of the generator `fibonacci()` (`src/index.ts:80-91`):
`started` is false until the first `next()` reaches `yield current`;
`current` and `next` are the generator's two local variables. -/
structure FibGen where
  started : Bool
  current : Int
  next : Int
deriving DecidableEq

/-- Calling `fibonacci()` (`src/index.ts:93`).  The locals are only assigned
on the first resume in JavaScript; the eager initialisation here is
observationally identical because nothing reads them earlier. -/
def fibonacci : FibGen :=
  { started := false, current := 0, next := 1 }

/-- One `sequence.next(signal)` call (`src/index.ts:84-89`).  The first call
runs to `yield current` and its argument is discarded; every later call
stores its argument in `reset`, executes `[current, next] = [next, next +
current]`, re-initialises the pair when `reset` is truthy, and yields the new
`current`. -/
def fibNext (g : FibGen) (reset : Bool) : Int × FibGen :=
  if g.started then
    if reset then (0, { started := true, current := 0, next := 1 })
    else
      (g.next, { started := true, current := g.next, next := g.next + g.current })
  else
    (g.current, { g with started := true })

/-- Values of successive `next` calls with the given signals; the source
trace (`src/index.ts:94-104`) passes `true` on the 8th call and nothing
(i.e. a falsy `undefined`) otherwise. -/
def fibTrace : FibGen → List Bool → List Int
  | _, [] => []
  | g, sig :: rest => (fibNext g sig).1 :: fibTrace (fibNext g sig).2 rest

/-- A JavaScript value as used by `ip` (`src/index.ts:116-141`): a string or
`undefined`. -/
inductive JsVal
  | undef
  | str (s : String)
deriving DecidableEq

/-- JavaScript truthiness on the values above: `undefined` and the empty
string are falsy, every other string is truthy. -/
def truthy : JsVal → Bool
  | JsVal.undef => false
  | JsVal.str s => !(s == "")

/-- The error thrown at `src/index.ts:140` when no candidate was truthy; this
is what the specification calls NoAcceptingCandidateError. -/
inductive IpError
  | noAcceptingCandidate
deriving DecidableEq

/-- Outcome of `ip` (`src/index.ts:116-141`), instrumented with how many
times each of the three candidate expressions (`parseApiGatewayHeader(…)`,
`parseCloudflareHeader(…)`, `request.ip`) was evaluated and whether
`reply.log.error` ran before the throw. -/
structure IpOutcome where
  result : Except IpError JsVal
  evals1 : Nat
  evals2 : Nat
  evals3 : Nat
  logged : Bool

/-- One resume of the generator `ipCandidates()` (`src/index.ts:120-124`).
The three candidate computations are passed as thunks; the body evaluates the
`k`-th thunk exactly when the `k`-th resume reaches its `yield`.  Returns the
yielded value (`none` once the body has returned) and the next suspension
position. -/
def ipCandidatesNext (c1 c2 c3 : Unit → JsVal) (pos : Nat) : Option JsVal × Nat :=
  match pos with
  | 0 => (some (c1 ()), 1)
  | 1 => (some (c2 ()), 2)
  | 2 => (some (c3 ()), 3)
  | p + 3 => (none, p + 3)

/-- Evaluation counters: a resume from position `pos` evaluated candidate
`pos + 1` once. -/
def bumpEval (pos : Nat) (ev : Nat × Nat × Nat) : Nat × Nat × Nat :=
  match pos with
  | 0 => (ev.1 + 1, ev.2.1, ev.2.2)
  | 1 => (ev.1, ev.2.1 + 1, ev.2.2)
  | 2 => (ev.1, ev.2.1, ev.2.2 + 1)
  | _ => ev

/-- The `for (const candidate of ipCandidates())` loop
(`src/index.ts:126-130`): resume the generator, return the first truthy
candidate, exit the loop when the generator is done.  The generator yields at
most three times, so four resumes bound the loop. -/
def ipLoop (c1 c2 c3 : Unit → JsVal) :
    Nat → Nat → Nat × Nat × Nat → Option JsVal × (Nat × Nat × Nat)
  | 0, _, ev => (none, ev)
  | fuel + 1, pos, ev =>
    match ipCandidatesNext c1 c2 c3 pos with
    | (none, _) => (none, ev)
    | (some v, pos1) =>
      if truthy v then (some v, bumpEval pos ev)
      else ipLoop c1 c2 c3 fuel pos1 (bumpEval pos ev)

/-- `ip` (`src/index.ts:116-141`): return the first truthy candidate; when
the loop finishes without one, call `reply.log.error` and throw. -/
def ip (c1 c2 c3 : Unit → JsVal) : IpOutcome :=
  match ipLoop c1 c2 c3 4 0 (0, 0, 0) with
  | (some v, (e1, e2, e3)) =>
    { result := Except.ok v, evals1 := e1, evals2 := e2, evals3 := e3, logged := false }
  | (none, (e1, e2, e3)) =>
    { result := Except.error IpError.noAcceptingCandidate,
      evals1 := e1, evals2 := e2, evals3 := e3, logged := true }

/-- Number of values a ranged sequence with positive step produces before
exhaustion; the theorem for claim C1 proves it equal to
`⌈(end - start) / step⌉` clamped at 0. -/
def rangeCount (s e st : Int) : Nat :=
  ((e - s + st - 1) / st).toNat

theorem stepN_succ (it : RangeIter) (n : Nat) :
    stepN it (n + 1) = (rangeNext (stepN it n)).2 := rfl

theorem rangeNext_stable (it : RangeIter) :
    (rangeNext it).2.stop = it.stop ∧ (rangeNext it).2.step = it.step := by
  unfold rangeNext
  split
  · exact ⟨rfl, rfl⟩
  · exact ⟨rfl, rfl⟩

theorem stepN_stop (it : RangeIter) (n : Nat) : (stepN it n).stop = it.stop := by
  induction n with
  | zero => rfl
  | succ n ih => rw [stepN_succ, (rangeNext_stable (stepN it n)).1, ih]

theorem stepN_step (it : RangeIter) (n : Nat) : (stepN it n).step = it.step := by
  induction n with
  | zero => rfl
  | succ n ih => rw [stepN_succ, (rangeNext_stable (stepN it n)).2, ih]

theorem rangeNext_lt {i e st : Int} (h : i < e) :
    rangeNext { index := i, stop := some e, step := st } =
      ({ value := i, done := false }, { index := i + st, stop := some e, step := st }) := by
  simp [rangeNext, ltStop, h]

theorem rangeNext_ge {i e st : Int} (h : e ≤ i) :
    rangeNext { index := i, stop := some e, step := st } =
      ({ value := i, done := true }, { index := i, stop := some e, step := st }) := by
  simp [rangeNext, ltStop, not_lt.2 h]

theorem rangeNext_of_done (it : RangeIter) (h : (rangeNext it).1.done = true) :
    rangeNext it = ({ value := it.index, done := true }, it) := by
  by_cases hc : ltStop it.index it.stop
  · exfalso
    simp [rangeNext, hc] at h
  · simp [rangeNext, hc]

theorem rangeNext_of_not_done (it : RangeIter) (h : (rangeNext it).1.done = false) :
    rangeNext it =
      ({ value := it.index, done := false }, { it with index := it.index + it.step }) := by
  by_cases hc : ltStop it.index it.stop
  · simp [rangeNext, hc]
  · exfalso
    simp [rangeNext, hc] at h

theorem rangeCount_eq_zero (s e st : Int) (hst : 0 < st) (h : e ≤ s) :
    rangeCount s e st = 0 := by
  unfold rangeCount
  have h1 : ¬ (1 : Int) ≤ (e - s + st - 1) / st := by
    rw [Int.le_ediv_iff_mul_le hst]
    omega
  omega

theorem rangeCount_pos (s e st : Int) (hst : 0 < st) (h : s < e) :
    1 ≤ rangeCount s e st := by
  unfold rangeCount
  have h1 : (1 : Int) ≤ (e - s + st - 1) / st := by
    rw [Int.le_ediv_iff_mul_le hst]
    omega
  omega

theorem ediv_ceil_ge (d st : Int) (hst : 0 < st) : d ≤ (d + st - 1) / st * st := by
  have h := Int.lt_ediv_add_one_mul_self (d + st - 1) hst
  have hexp : ((d + st - 1) / st + 1) * st = (d + st - 1) / st * st + st := by ring
  linarith [hexp ▸ h]

theorem ediv_ceil_le (d st : Int) (hst : 0 < st) : (d + st - 1) / st * st ≤ d + st - 1 :=
  Int.ediv_mul_le _ hst.ne'

theorem rangeCount_mul_ge (s e st : Int) (hst : 0 < st) :
    e - s ≤ st * (rangeCount s e st : Int) := by
  rcases le_or_lt e s with h | h
  · rw [rangeCount_eq_zero s e st hst h]
    push_cast
    omega
  · unfold rangeCount
    have h1 : (0 : Int) ≤ (e - s + st - 1) / st := Int.ediv_nonneg (by omega) hst.le
    rw [Int.toNat_of_nonneg h1]
    have := ediv_ceil_ge (e - s) st hst
    linarith [mul_comm st ((e - s + st - 1) / st)]

theorem mul_lt_of_lt_rangeCount (s e st : Int) (hst : 0 < st) {k : Nat}
    (hk : k < rangeCount s e st) :
    st * (k : Int) < e - s := by
  unfold rangeCount at hk
  have hk2 : (k : Int) + 1 ≤ (e - s + st - 1) / st := by omega
  have hq := ediv_ceil_le (e - s) st hst
  have hmono : ((k : Int) + 1) * st ≤ (e - s + st - 1) / st * st :=
    mul_le_mul_of_nonneg_right hk2 hst.le
  have hexp : ((k : Int) + 1) * st = (k : Int) * st + st := by ring
  linarith [mul_comm st (k : Int)]

theorem rangeCount_succ_shift (s e st : Int) (hst : 0 < st) (h : s < e) :
    rangeCount s e st = rangeCount (s + st) e st + 1 := by
  unfold rangeCount
  have h1 : e - s + st - 1 = e - (s + st) + st - 1 + 1 * st := by ring
  rw [h1, Int.add_mul_ediv_right _ _ hst.ne']
  have h2 : (0 : Int) ≤ (e - (s + st) + st - 1) / st := Int.ediv_nonneg (by omega) hst.le
  omega

theorem stepN_range_pos (s e st : Int) (hst : 0 < st) (n : Nat) :
    stepN (range s (some e) st) n =
      { index := s + st * ((min n (rangeCount s e st) : Nat) : Int),
        stop := some e, step := st } := by
  induction n with
  | zero =>
    simp [stepN, range]
  | succ n ih =>
    rw [stepN_succ, ih]
    rcases lt_or_le n (rangeCount s e st) with h | h
    · have hmin1 : min n (rangeCount s e st) = n := min_eq_left h.le
      have hmin2 : min (n + 1) (rangeCount s e st) = n + 1 := min_eq_left h
      have hlt : s + st * ((n : Nat) : Int) < e := by
        have := mul_lt_of_lt_rangeCount s e st hst h
        linarith
      rw [hmin1, hmin2, rangeNext_lt hlt]
      simp only [RangeIter.mk.injEq, and_true]
      push_cast
      ring
    · have hmin1 : min n (rangeCount s e st) = rangeCount s e st := min_eq_right h
      have hmin2 : min (n + 1) (rangeCount s e st) = rangeCount s e st :=
        min_eq_right (h.trans (Nat.le_succ n))
      have hge : e ≤ s + st * ((rangeCount s e st : Nat) : Int) := by
        have := rangeCount_mul_ge s e st hst
        linarith
      rw [hmin1, hmin2, rangeNext_ge hge]

theorem resultN_range_pos (s e st : Int) (hst : 0 < st) (n : Nat) :
    resultN (range s (some e) st) n =
      if n < rangeCount s e st then { value := s + st * (n : Int), done := false }
      else { value := s + st * ((rangeCount s e st : Nat) : Int), done := true } := by
  unfold resultN
  rw [stepN_range_pos s e st hst n]
  rcases lt_or_le n (rangeCount s e st) with h | h
  · have hmin : min n (rangeCount s e st) = n := min_eq_left h.le
    have hlt : s + st * ((n : Nat) : Int) < e := by
      have := mul_lt_of_lt_rangeCount s e st hst h
      linarith
    rw [hmin, rangeNext_lt hlt, if_pos h]
  · have hmin : min n (rangeCount s e st) = rangeCount s e st := min_eq_right h
    have hge : e ≤ s + st * ((rangeCount s e st : Nat) : Int) := by
      have := rangeCount_mul_ge s e st hst
      linarith
    rw [hmin, rangeNext_ge hge, if_neg (not_lt.2 h)]

theorem map_range_shift (N : Nat) (a b : Int) :
    (List.range (N + 1)).map (fun (k : Nat) => a + b * (k : Int))
      = a :: (List.range N).map fun (k : Nat) => a + b + b * (k : Int) := by
  rw [List.range_succ_eq_map, List.map_cons, List.map_map]
  refine congrArg₂ List.cons (by simp) ?_
  apply List.map_congr_left
  intro x _
  simp only [Function.comp_apply]
  push_cast
  ring

theorem drain_range_pos (e st : Int) (hst : 0 < st) :
    ∀ (fuel : Nat) (s : Int), rangeCount s e st < fuel →
      drain fuel (range s (some e) st) =
        some ((List.range (rangeCount s e st)).map fun (k : Nat) => s + st * (k : Int)) := by
  intro fuel
  induction fuel with
  | zero => exact fun s h => absurd h (Nat.not_lt_zero _)
  | succ fuel ih =>
    intro s h
    rcases lt_or_le s e with hse | hse
    · have hcnt := rangeCount_succ_shift s e st hst hse
      have hrec : rangeCount (s + st) e st < fuel := by omega
      have hnext : rangeNext (range s (some e) st) =
          ({ value := s, done := false }, range (s + st) (some e) st) := rangeNext_lt hse
      simp only [drain, hnext, Bool.false_eq_true, if_false, ih (s + st) hrec,
        Option.map_some]
      rw [hcnt, map_range_shift]
      rfl
    · have hnext : rangeNext (range s (some e) st) =
          ({ value := s, done := true }, range s (some e) st) := rangeNext_ge hse
      simp only [drain, hnext, if_true]
      rw [rangeCount_eq_zero s e st hst hse]
      simp

theorem pairwise_lt_map_range (N : Nat) (s st : Int) (hst : 0 < st) :
    ((List.range N).map fun (k : Nat) => s + st * (k : Int)).Pairwise (· < ·) := by
  rw [List.pairwise_map]
  refine List.Pairwise.imp ?_ (List.pairwise_lt_range N)
  intro a b hab
  have hmul : st * (a : Int) < st * (b : Int) :=
    mul_lt_mul_of_pos_left (by exact_mod_cast hab) hst
  linarith

theorem mem_map_range_iff (s e st : Int) (hst : 0 < st) (k : Nat) :
    (s + st * (k : Int)) ∈ ((List.range (rangeCount s e st)).map fun (j : Nat) => s + st * (j : Int))
      ↔ s + st * (k : Int) < e := by
  rw [List.mem_map]
  constructor
  · rintro ⟨j, hj, hje⟩
    rw [List.mem_range] at hj
    have h2 : st * (j : Int) = st * (k : Int) := by linarith
    have hjk : (j : Int) = (k : Int) := mul_left_cancel₀ hst.ne' h2
    have hk : k < rangeCount s e st := by
      have : j = k := by exact_mod_cast hjk
      omega
    have := mul_lt_of_lt_rangeCount s e st hst hk
    linarith
  · intro hlt
    refine ⟨k, ?_, rfl⟩
    rw [List.mem_range]
    by_contra hk
    push_neg at hk
    have hge := rangeCount_mul_ge s e st hst
    have hmono : st * ((rangeCount s e st : Nat) : Int) ≤ st * (k : Int) :=
      mul_le_mul_of_nonneg_left (by exact_mod_cast hk) hst.le
    linarith

theorem rangeCount_eq_ceil (s e st : Int) (hst : 0 < st) :
    ((rangeCount s e st : Nat) : Int) = max 0 ⌈((e : ℚ) - (s : ℚ)) / (st : ℚ)⌉ := by
  have hstq : (0 : ℚ) < (st : ℚ) := by exact_mod_cast hst
  rcases le_or_lt e s with h | h
  · rw [rangeCount_eq_zero s e st hst h]
    have hnum : ((e : ℚ) - (s : ℚ)) ≤ 0 := by
      have : (e : ℚ) ≤ (s : ℚ) := by exact_mod_cast h
      linarith
    have hdiv : ((e : ℚ) - (s : ℚ)) / (st : ℚ) ≤ 0 :=
      div_nonpos_of_nonpos_of_nonneg hnum hstq.le
    have hceil : ⌈((e : ℚ) - (s : ℚ)) / (st : ℚ)⌉ ≤ 0 := by
      rw [Int.ceil_le]
      exact_mod_cast hdiv
    rw [max_eq_left hceil]
    simp
  · have h1 : (1 : Int) ≤ (e - s + st - 1) / st := by
      rw [Int.le_ediv_iff_mul_le hst]
      omega
    have hposq : (0 : Int) ≤ (e - s + st - 1) / st := by omega
    have hcast : ((rangeCount s e st : Nat) : Int) = (e - s + st - 1) / st := by
      unfold rangeCount
      exact Int.toNat_of_nonneg hposq
    rw [hcast]
    have hA := ediv_ceil_ge (e - s) st hst
    have hB := ediv_ceil_le (e - s) st hst
    have hceil : ⌈((e : ℚ) - (s : ℚ)) / (st : ℚ)⌉ = (e - s + st - 1) / st := by
      rw [Int.ceil_eq_iff]
      constructor
      · rw [lt_div_iff₀ hstq]
        have hZ : ((e - s + st - 1) / st - 1) * st ≤ e - s - 1 := by linarith
        have hZQ : ((((e - s + st - 1) / st : Int) : ℚ) - 1) * (st : ℚ) ≤ ((e : ℚ) - s) - 1 := by
          exact_mod_cast hZ
        linarith
      · rw [div_le_iff₀ hstq]
        exact_mod_cast hA
    rw [hceil, max_eq_right (by omega)]

theorem xdrain_suspended (stop : Option Int) (st : Int) :
    ∀ (fuel : Nat) (s0 i : Int),
      xdrain fuel { start := s0, stop := stop, step := st, pos := XPos.suspended i }
        = (drain fuel { index := i + st, stop := stop, step := st }).map (List.map some) := by
  intro fuel
  induction fuel with
  | zero => intro s0 i; rfl
  | succ fuel ih =>
    intro s0 i
    by_cases h : ltStop (i + st) stop
    · simp only [xdrain, drain, xrangeNext, rangeNext, h, if_true]
      rw [ih s0 (i + st)]
      cases hD : drain fuel { index := i + st + st, stop := stop, step := st } <;>
        simp [hD]
    · simp only [xdrain, drain, xrangeNext, rangeNext, h, if_false]
      simp [h]

theorem xdrain_eq_drain (stop : Option Int) (s st : Int) (fuel : Nat) :
    xdrain fuel (xrange s stop st) = (drain fuel (range s stop st)).map (List.map some) := by
  cases fuel with
  | zero => rfl
  | succ fuel =>
    by_cases h : ltStop s stop
    · simp only [xdrain, drain, xrange, range, xrangeNext, rangeNext, h, if_true]
      rw [xdrain_suspended stop st fuel s s]
      cases hD : drain fuel { index := s + st, stop := stop, step := st } <;>
        simp [hD]
    · simp only [xdrain, drain, xrange, range, xrangeNext, rangeNext, h, if_false]
      simp [h]

theorem drain_stop_none : ∀ (fuel : Nat) (it : RangeIter), it.stop = none →
    drain fuel it = none := by
  intro fuel
  induction fuel with
  | zero => intro it _; rfl
  | succ fuel ih =>
    intro it h
    have hlt : ltStop it.index it.stop = true := by rw [h]; rfl
    have hnext := rangeNext_of_not_done it (by simp [rangeNext, hlt])
    simp only [drain, hnext]
    rw [ih { it with index := it.index + it.step } h]
    rfl

theorem resultN_stop_none (it : RangeIter) (h : it.stop = none) (n : Nat) :
    (resultN it n).done = false := by
  have hstop : (stepN it n).stop = none := by rw [stepN_stop, h]
  have hlt : ltStop (stepN it n).index (stepN it n).stop = true := by rw [hstop]; rfl
  unfold resultN
  simp [rangeNext, hlt]

theorem stepN_frozen (it : RangeIter) (n : Nat) (h : (resultN it n).done = true) :
    ∀ m, n ≤ m → stepN it m = stepN it n ∧ resultN it m = resultN it n := by
  intro m hm
  induction m, hm using Nat.le_induction with
  | base => exact ⟨rfl, rfl⟩
  | succ m hm ih =>
    have heq : (rangeNext (stepN it m)).1 = resultN it n := ih.2
    have hd : (rangeNext (stepN it m)).1.done = true := by rw [heq]; exact h
    have hstep : stepN it (m + 1) = stepN it m := by
      rw [stepN_succ, rangeNext_of_done _ hd]
    refine ⟨hstep.trans ih.1, ?_⟩
    have hres : resultN it (m + 1) = resultN it m := by
      unfold resultN
      rw [hstep]
    rw [hres, ih.2]

theorem resultsN_succ (it : RangeIter) (n : Nat) :
    resultsN it (n + 1) = resultsN it n ++ [resultN it n] := by
  unfold resultsN
  rw [List.range_succ, List.map_append]
  rfl

theorem producedCount_succ (it : RangeIter) (n : Nat) :
    producedCount it (n + 1)
      = producedCount it n + (if (resultN it n).done then 0 else 1) := by
  unfold producedCount
  rw [resultsN_succ, List.filter_append, List.length_append]
  cases h : (resultN it n).done <;> simp [h]

theorem stepN_index (it : RangeIter) (n : Nat) :
    (stepN it n).index = it.index + it.step * (producedCount it n : Int) := by
  induction n with
  | zero => simp [stepN, producedCount, resultsN]
  | succ n ih =>
    rw [stepN_succ]
    cases hd : (resultN it n).done
    · have hd' : (rangeNext (stepN it n)).1.done = false := hd
      rw [rangeNext_of_not_done _ hd', producedCount_succ, hd]
      simp only [Bool.false_eq_true, if_false]
      show (stepN it n).index + (stepN it n).step = _
      rw [ih, stepN_step]
      push_cast
      ring
    · have hd' : (rangeNext (stepN it n)).1.done = true := hd
      rw [rangeNext_of_done _ hd', producedCount_succ, hd]
      simp [ih]

theorem producedCount_le (it : RangeIter) (n : Nat) : producedCount it n ≤ n := by
  have h := List.length_filter_le (fun r => !r.done) (resultsN it n)
  unfold producedCount
  simpa [resultsN] using h

theorem producedCount_frozen (it : RangeIter) (n : Nat)
    (h : (resultN it n).done = true) :
    ∀ m, n ≤ m → producedCount it m = producedCount it n := by
  intro m hm
  induction m, hm using Nat.le_induction with
  | base => rfl
  | succ m hm ih =>
    rw [producedCount_succ]
    have hd : (resultN it m).done = true := by
      rw [(stepN_frozen it n h m hm).2]
      exact h
    simp [hd, ih]

theorem producedCount_eq_self (it : RangeIter) (k : Nat)
    (h : ∀ j, j < k → (resultN it j).done = false) :
    producedCount it k = k := by
  induction k with
  | zero => rfl
  | succ k ih =>
    rw [producedCount_succ, h k (by omega), ih fun j hj => h j (by omega)]
    simp

theorem result_false_of_lt_producedCount (it : RangeIter) (n k : Nat)
    (hk : k < producedCount it n) :
    (resultN it k).done = false := by
  by_contra hd
  rw [Bool.not_eq_false] at hd
  have hkn : k ≤ n := le_trans (le_of_lt hk) (producedCount_le it n)
  have h1 : producedCount it n = producedCount it k :=
    producedCount_frozen it k hd n hkn
  have h2 := producedCount_le it k
  omega

theorem resultN_done_value (it : RangeIter) (n : Nat)
    (h : (resultN it n).done = true) :
    (resultN it n).value = (stepN it n).index := by
  unfold resultN
  rw [rangeNext_of_done _ h]

theorem resultN_done_ge (it : RangeIter) {e : Int} (hstop : it.stop = some e) (n : Nat)
    (h : (resultN it n).done = true) :
    e ≤ (stepN it n).index := by
  have hs : (stepN it n).stop = some e := by rw [stepN_stop, hstop]
  by_cases hc : ltStop (stepN it n).index (stepN it n).stop
  · exfalso
    unfold resultN at h
    simp [rangeNext, hc] at h
  · rw [hs] at hc
    simpa [ltStop] using hc

theorem resultN_false_view (it : RangeIter) {e : Int} (hstop : it.stop = some e) (n : Nat)
    (h : (resultN it n).done = false) :
    (resultN it n).value = (stepN it n).index ∧ (stepN it n).index < e := by
  refine ⟨by unfold resultN; rw [rangeNext_of_not_done _ h], ?_⟩
  by_cases hc : ltStop (stepN it n).index (stepN it n).stop
  · have hs : (stepN it n).stop = some e := by rw [stepN_stop, hstop]
    rw [hs] at hc
    simpa [ltStop] using hc
  · exfalso
    unfold resultN at h
    simp [rangeNext, hc] at h

theorem stepN_range_nonpos (s e st : Int) (hst : st ≤ 0) (hse : s < e) (n : Nat) :
    stepN (range s (some e) st) n =
      { index := s + st * (n : Int), stop := some e, step := st } := by
  induction n with
  | zero => simp [stepN, range]
  | succ n ih =>
    rw [stepN_succ, ih]
    have hnn : (0 : Int) ≤ (n : Int) := by positivity
    have hnp : st * (n : Int) ≤ 0 := mul_nonpos_iff.2 (Or.inr ⟨hst, hnn⟩)
    have hlt : s + st * (n : Int) < e := by linarith
    rw [rangeNext_lt hlt]
    simp only [RangeIter.mk.injEq, and_true]
    push_cast
    ring

theorem resultN_range_nonpos (s e st : Int) (hst : st ≤ 0) (hse : s < e) (n : Nat) :
    resultN (range s (some e) st) n = { value := s + st * (n : Int), done := false } := by
  unfold resultN
  rw [stepN_range_nonpos s e st hst hse n]
  have hnn : (0 : Int) ≤ (n : Int) := by positivity
  have hnp : st * (n : Int) ≤ 0 := mul_nonpos_iff.2 (Or.inr ⟨hst, hnn⟩)
  have hlt : s + st * (n : Int) < e := by linarith
  rw [rangeNext_lt hlt]

theorem drain_eq_useRangeAux : ∀ (fuel : Nat) (it : RangeIter),
    drain (fuel + 1) it = useRangeAux fuel (rangeNext it) := by
  intro fuel
  induction fuel with
  | zero =>
    intro it
    rcases hR : rangeNext it with ⟨r, it2⟩
    simp only [drain, useRangeAux, hR]
    cases h : r.done <;> simp [h]
  | succ fuel ih =>
    intro it
    rcases hR : rangeNext it with ⟨r, it2⟩
    simp only [drain, useRangeAux, hR]
    cases h : r.done
    · have hD := ih it2
      simp only [drain] at hD
      simp [h, hD]
    · simp [h]

theorem resultsN_length (it : RangeIter) (n : Nat) : (resultsN it n).length = n := by
  simp [resultsN]

theorem xrun_length : ∀ (n : Nat) (g : XrangeGen), (xrun g n).length = n := by
  intro n
  induction n with
  | zero => intro g; rfl
  | succ n ih => intro g; simp [xrun, ih]

theorem fibTrace_length : ∀ (sigs : List Bool) (g : FibGen),
    (fibTrace g sigs).length = sigs.length := by
  intro sigs
  induction sigs with
  | nil => intro g; rfl
  | cons sig rest ih => intro g; simp [fibTrace, ih]

/-- Claim C1: for every start, end, step with step > 0, fully materializing the
ranged sequence (`range` as well as `xrange`, given enough resume calls) yields
exactly the arithmetic progression start, start + step, … of all values
strictly less than end, in ascending order, and its count equals
ceil((end - start) / step) when positive, else zero; in particular
range(0, 10) materializes to [0, …, 9] (the witness instantiates this). -/
theorem claim_range_collect (s e st : Int) (hst : 0 < st) (fuel : Nat)
    (hfuel : rangeCount s e st < fuel) :
    drain fuel (range s (some e) st)
        = some ((List.range (rangeCount s e st)).map fun (k : Nat) => s + st * (k : Int))
    ∧ xdrain fuel (xrange s (some e) st)
        = some (((List.range (rangeCount s e st)).map
            fun (k : Nat) => s + st * (k : Int)).map some)
    ∧ ((rangeCount s e st : Nat) : Int) = max 0 ⌈((e : ℚ) - (s : ℚ)) / (st : ℚ)⌉
    ∧ ((List.range (rangeCount s e st)).map
        fun (k : Nat) => s + st * (k : Int)).Pairwise (· < ·)
    ∧ ∀ k : Nat,
        (s + st * (k : Int))
            ∈ ((List.range (rangeCount s e st)).map fun (j : Nat) => s + st * (j : Int))
          ↔ s + st * (k : Int) < e := by
  have h1 := drain_range_pos e st hst fuel s hfuel
  refine ⟨h1, ?_, rangeCount_eq_ceil s e st hst,
    pairwise_lt_map_range _ s st hst, fun k => mem_map_range_iff s e st hst k⟩
  rw [xdrain_eq_drain (some e) s st fuel, h1]
  rfl

/-- Witness for C1 at start 0, end 10, step 1 with 11 resume calls: the
materialized sequences are [0, …, 9]. -/
theorem claim_range_collect_witness :
    drain 11 (range 0 (some 10) 1) = some [0, 1, 2, 3, 4, 5, 6, 7, 8, 9]
    ∧ xdrain 11 (xrange 0 (some 10) 1)
        = some [some 0, some 1, some 2, some 3, some 4,
                some 5, some 6, some 7, some 8, some 9] := by
  have h := claim_range_collect 0 10 1 (by decide) 11 (by decide)
  constructor
  · rw [h.1]
    decide
  · rw [h.2.1]
    decide

/-- Claim C2: the fibonacci sequence's first 7 resumes (falsy signal) yield
0, 1, 1, 2, 3, 5, 8; the 8th resume with a truthy reset signal yields 0 and the
next three yield 1, 1, 2; and in general a reset signal on any started
generator restores the cursor to (0, 1) and makes that resume yield 0. -/
theorem claim_fibonacci_trace_reset :
    fibTrace fibonacci
        [false, false, false, false, false, false, false, true, false, false, false]
      = [0, 1, 1, 2, 3, 5, 8, 0, 1, 1, 2]
    ∧ ∀ g : FibGen, g.started = true →
        fibNext g true = (0, { started := true, current := 0, next := 1 }) := by
  refine ⟨by decide, ?_⟩
  intro g hg
  simp [fibNext, hg]

/-- Witness for C2's reset clause at the cursor reached after 7 resumes. -/
theorem claim_fibonacci_trace_reset_witness :
    fibNext { started := true, current := 8, next := 13 } true
      = (0, { started := true, current := 0, next := 1 }) :=
  claim_fibonacci_trace_reset.2 { started := true, current := 8, next := 13 } rfl

/-- Claim C3: in `ip`, every candidate expression is evaluated at most once;
a truthy earlier candidate prevents all later ones from being evaluated; a
truthy candidate is returned; and when all three candidates are falsy, `ip`
logs and then throws (the specification's NoAcceptingCandidateError). -/
theorem claim_ip_lazy_candidates (c1 c2 c3 : Unit → JsVal) :
    (ip c1 c2 c3).evals1 ≤ 1 ∧ (ip c1 c2 c3).evals2 ≤ 1 ∧ (ip c1 c2 c3).evals3 ≤ 1
    ∧ (truthy (c1 ()) = true →
        ip c1 c2 c3 = { result := Except.ok (c1 ()),
                        evals1 := 1, evals2 := 0, evals3 := 0, logged := false })
    ∧ (truthy (c1 ()) = false → truthy (c2 ()) = true →
        ip c1 c2 c3 = { result := Except.ok (c2 ()),
                        evals1 := 1, evals2 := 1, evals3 := 0, logged := false })
    ∧ (truthy (c1 ()) = false → truthy (c2 ()) = false → truthy (c3 ()) = true →
        ip c1 c2 c3 = { result := Except.ok (c3 ()),
                        evals1 := 1, evals2 := 1, evals3 := 1, logged := false })
    ∧ (truthy (c1 ()) = false → truthy (c2 ()) = false → truthy (c3 ()) = false →
        ip c1 c2 c3 = { result := Except.error IpError.noAcceptingCandidate,
                        evals1 := 1, evals2 := 1, evals3 := 1, logged := true }) := by
  cases h1 : truthy (c1 ()) <;> cases h2 : truthy (c2 ()) <;> cases h3 : truthy (c3 ()) <;>
    simp [ip, ipLoop, ipCandidatesNext, bumpEval, h1, h2, h3]

/-- Witness for C3 with two falsy candidates followed by a truthy one: each
expensive computation ran exactly once and the third candidate is returned. -/
theorem claim_ip_lazy_candidates_witness :
    ip (fun _ => JsVal.undef) (fun _ => JsVal.str "") (fun _ => JsVal.str "203.0.113.7")
      = { result := Except.ok (JsVal.str "203.0.113.7"),
          evals1 := 1, evals2 := 1, evals3 := 1, logged := false } := by
  have h := claim_ip_lazy_candidates
    (fun _ => JsVal.undef) (fun _ => JsVal.str "") (fun _ => JsVal.str "203.0.113.7")
  exact h.2.2.2.2.2.1 rfl rfl rfl

/-- Claim C4 is false of the code (counterexample): calling `range` with
step = 0 raises no ConfigurationError — construction succeeds and the
resulting sequence resumes normally, as does `xrange` with step = 0. -/
theorem claim_step_zero_counterexample :
    rangeE 0 (some 10) 0 = Except.ok (range 0 (some 10) 0)
    ∧ resultsN (range 0 (some 10) 0) 3
        = [{ value := 0, done := false }, { value := 0, done := false },
           { value := 0, done := false }]
    ∧ (xrangeNext (xrange 0 (some 10) 0)).1 = { value := some 0, done := false } :=
  ⟨rfl, by decide, by decide⟩

/-- Claim C4 (amended): constructing a ranged sequence with step = 0 reports
no error at all — `range`'s body has no validation, so construction always
succeeds, and with start < end every later resume returns start with
done = false (the misconfigured sequence never terminates). -/
theorem claim_step_zero_no_error (s e : Int) (n : Nat) (h : s < e) :
    rangeE s (some e) 0 = Except.ok (range s (some e) 0)
    ∧ resultN (range s (some e) 0) n = { value := s, done := false } := by
  refine ⟨rfl, ?_⟩
  have hres := resultN_range_nonpos s e 0 le_rfl h n
  simpa using hres

/-- Witness for the amended C4 at range(0, 10, 0), sixth resume. -/
theorem claim_step_zero_no_error_witness :
    rangeE 0 (some 10) 0 = Except.ok (range 0 (some 10) 0)
    ∧ resultN (range 0 (some 10) 0) 5 = { value := 0, done := false } :=
  claim_step_zero_no_error 0 10 5 (by decide)

/-- Claim C5: a finite ranged sequence with count N answers done = false on
exactly the first N resumes and done = true from the N+1-th resume on, and
resuming the exhausted sequence is a no-op: the cursor is unchanged and the
same terminal result is returned again — never an error. -/
theorem claim_range_done_boundary (s e st : Int) (hst : 0 < st) (n : Nat) :
    ((resultN (range s (some e) st) n).done = decide (rangeCount s e st ≤ n))
    ∧ (rangeCount s e st ≤ n →
        rangeNext (stepN (range s (some e) st) n)
          = ({ value := s + st * ((rangeCount s e st : Nat) : Int), done := true },
              stepN (range s (some e) st) n)) := by
  constructor
  · rcases lt_or_le n (rangeCount s e st) with h | h
    · rw [resultN_range_pos s e st hst n, if_pos h]
      simp [decide_eq_false (by omega : ¬ rangeCount s e st ≤ n)]
    · rw [resultN_range_pos s e st hst n, if_neg (not_lt.2 h)]
      simp [decide_eq_true h]
  · intro h
    rw [stepN_range_pos s e st hst n, min_eq_right h]
    exact rangeNext_ge (by have := rangeCount_mul_ge s e st hst; linarith)

/-- Witness for C5 at range(0, 3, 1) on the 6th resume (count is 3). -/
theorem claim_range_done_boundary_witness :
    ((resultN (range 0 (some 3) 1) 5).done = decide (rangeCount 0 3 1 ≤ 5))
    ∧ rangeNext (stepN (range 0 (some 3) 1) 5)
        = ({ value := 0 + 1 * ((rangeCount 0 3 1 : Nat) : Int), done := true },
            stepN (range 0 (some 3) 1) 5) := by
  have h := claim_range_done_boundary 0 3 1 (by decide) 5
  exact ⟨h.1, h.2 (by decide)⟩

/-- Claim C6: enumerating via the iterable adapter (for-of or spread over the
object whose Symbol.iterator returns range(0, 10)) produces exactly the same
values in the same order as `useRange`'s direct repeated next calls, namely
[0, …, 9].  (The adapter performs one extra `next` call to observe `done`
before its loop body, hence the fuel offset.) -/
theorem claim_iterable_adapter_equiv (fuel : Nat) :
    forOfIterable (fuel + 1) = useRange fuel
    ∧ (10 < fuel → useRange fuel = some [0, 1, 2, 3, 4, 5, 6, 7, 8, 9]) := by
  constructor
  · unfold forOfIterable useRange iterableIterator
    exact drain_eq_useRangeAux fuel (range 0 (some 10) 1)
  · intro h
    unfold useRange
    rw [← drain_eq_useRangeAux fuel (range 0 (some 10) 1)]
    have hc : rangeCount 0 10 1 < fuel + 1 := by
      have h10 : rangeCount 0 10 1 = 10 := by decide
      omega
    rw [drain_range_pos 10 1 (by decide) (fuel + 1) 0 hc]
    decide

/-- Witness for C6 with enough fuel for all 11 next calls. -/
theorem claim_iterable_adapter_equiv_witness :
    forOfIterable 12 = useRange 11
    ∧ useRange 11 = some [0, 1, 2, 3, 4, 5, 6, 7, 8, 9] := by
  have h := claim_iterable_adapter_equiv 11
  exact ⟨h.1, h.2 (by decide)⟩

/-- Claim C7: resume is total — for any sequence state produced by `range`,
`xrange` or `fibonacci`, any number of resume calls with any signal values
returns exactly one value/done step result per call and never an error (the
embedded `next` operations are total functions with no throwing branch). -/
theorem claim_resume_total :
    (∀ (it : RangeIter) (n : Nat), (resultsN it n).length = n)
    ∧ (∀ (g : XrangeGen) (n : Nat), (xrun g n).length = n)
    ∧ ∀ (f : FibGen) (sigs : List Bool), (fibTrace f sigs).length = sigs.length :=
  ⟨fun it n => resultsN_length it n, fun g n => xrun_length n g,
    fun f sigs => fibTrace_length sigs f⟩

/-- Claim C8 is false of the code (counterexample): unbounded materialization
of the infinite sequence xrange(0, Infinity, 1) never produces any outcome —
in particular it never fails with a NonTerminatingSequenceError — no matter
how many resume calls are spent. -/
theorem claim_infinite_drain_counterexample :
    ¬ ∃ fuel : Nat, xdrain fuel (xrange 0 none 1) ≠ none := by
  rintro ⟨fuel, hne⟩
  apply hne
  rw [xdrain_eq_drain none 0 1 fuel, drain_stop_none fuel (range 0 none 1) rfl]
  rfl

/-- Claim C8 (amended): attempting unbounded bulk materialization of an
infinite sequence (end = Infinity) hangs instead of failing: after any number
of resume calls the spread has not completed, no error of any kind is raised,
and every individual resume still reports done = false. -/
theorem claim_infinite_drain_no_error (fuel n : Nat) :
    xdrain fuel (xrange 0 none 1) = none
    ∧ drain fuel (range 0 none 1) = none
    ∧ (resultN (range 0 none 1) n).done = false := by
  refine ⟨?_, drain_stop_none fuel (range 0 none 1) rfl,
    resultN_stop_none (range 0 none 1) rfl n⟩
  rw [xdrain_eq_drain none 0 1 fuel, drain_stop_none fuel (range 0 none 1) rfl]
  rfl

/-- Claim C9: for start < end and step ≤ 0, range(start, end, step) never
reports done = true — with step = 0 every resume yields start, and with
step < 0 the resumes yield the descending progression start + step·n,
indefinitely. -/
theorem claim_nonpositive_step_never_done (s e st : Int) (hse : s < e) (hst : st ≤ 0)
    (n : Nat) :
    resultN (range s (some e) st) n = { value := s + st * (n : Int), done := false } :=
  resultN_range_nonpos s e st hst hse n

/-- Witness for C9 at range(0, 5, -2), fourth resume. -/
theorem claim_nonpositive_step_never_done_witness :
    resultN (range 0 (some 5) (-2)) 3 = { value := -6, done := false } := by
  have h := claim_nonpositive_step_never_done 0 5 (-2) (by decide) (by decide) 3
  rw [h]
  decide

/-- Claim C10: once a range-produced sequence reports done = true, the cursor
is never mutated again and every later resume returns the identical terminal
step result; the terminal value is start + step·count where count is the
number of produced values, it is the first index ≥ end (every earlier index
start + step·k was < end). -/
theorem claim_exhausted_frame (s e st : Int) (n : Nat)
    (h : (resultN (range s (some e) st) n).done = true) :
    (∀ m, n ≤ m → stepN (range s (some e) st) m = stepN (range s (some e) st) n
        ∧ resultN (range s (some e) st) m = resultN (range s (some e) st) n)
    ∧ (resultN (range s (some e) st) n).value
        = s + st * (producedCount (range s (some e) st) n : Int)
    ∧ e ≤ (resultN (range s (some e) st) n).value
    ∧ ∀ k : Nat, k < producedCount (range s (some e) st) n → s + st * (k : Int) < e := by
  have hidx := stepN_index (range s (some e) st) n
  have hval := resultN_done_value (range s (some e) st) n h
  refine ⟨stepN_frozen _ n h, ?_, ?_, ?_⟩
  · rw [hval, hidx]
    rfl
  · rw [hval]
    exact resultN_done_ge (range s (some e) st) rfl n h
  · intro k hk
    have hf := result_false_of_lt_producedCount (range s (some e) st) n k hk
    have hview := resultN_false_view (range s (some e) st) rfl k hf
    have hpc : producedCount (range s (some e) st) k = k :=
      producedCount_eq_self _ k fun j hj =>
        result_false_of_lt_producedCount (range s (some e) st) n j (lt_trans hj hk)
    have hidxk := stepN_index (range s (some e) st) k
    rw [hpc] at hidxk
    have h2 := hview.2
    rw [hidxk] at h2
    simpa [range] using h2

/-- Witness for C10 at range(0, 3, 1), exhausted at the 4th resume. -/
theorem claim_exhausted_frame_witness :
    resultN (range 0 (some 3) 1) 9 = resultN (range 0 (some 3) 1) 3
    ∧ (resultN (range 0 (some 3) 1) 3).value
        = 0 + 1 * (producedCount (range 0 (some 3) 1) 3 : Int) := by
  have h := claim_exhausted_frame 0 3 1 3 (by decide)
  exact ⟨(h.1 9 (by decide)).2, h.2.1⟩

end IterTalk
